import Mathlib

/-!
Verification of the beets distance-scoring engine (beets/autotag/hooks.py).

The Python code is shallowly embedded: penalty values and weights become
rationals, the Python dict of penalties becomes an insertion-ordered
association list, and operations that can raise become functions returning
the (unchanged-on-error) state together with an optional error message.
-/

namespace Beets

/-- Model of the `Distance._penalties` dict: a mapping from penalty key to the
ordered list of raw penalty values, in insertion order. -/
structure Distance where
  penalties : List (String × List ℚ)
deriving DecidableEq

/-- A fresh accumulator, as built by `Distance.__init__`. -/
def Distance.empty : Distance := ⟨[]⟩

/-- Model of `self._penalties.setdefault(key, []).extend(vs)` (and, with a
singleton `vs`, of `setdefault(key, []).append(v)`): appends the values to the
entry for `key`, creating the entry at the end if missing. -/
def addToAssoc : List (String × List ℚ) → String → List ℚ → List (String × List ℚ)
  | [], key, vs => [(key, vs)]
  | (k, l) :: rest, key, vs =>
      if k = key then (k, l ++ vs) :: rest else (k, l) :: addToAssoc rest key vs

/-- Model of `Distance.max_distance`: the sum over keys of
(number of values for the key) times (the key's weight). -/
def Distance.maxDistance (w : String → ℚ) (d : Distance) : ℚ :=
  (d.penalties.map (fun e => (e.2.length : ℚ) * w e.1)).sum

/-- Model of `Distance.raw_distance`: the sum over keys of
(sum of the key's values) times (the key's weight). -/
def Distance.rawDistance (w : String → ℚ) (d : Distance) : ℚ :=
  (d.penalties.map (fun e => e.2.sum * w e.1)).sum

/-- Model of the `Distance.distance` property: `raw_distance / max_distance`
when `max_distance` is nonzero (Python float truthiness), else 0.0. -/
def Distance.distance (w : String → ℚ) (d : Distance) : ℚ :=
  if d.maxDistance w ≠ 0 then d.rawDistance w / d.maxDistance w else 0

/-- Model of `Distance.__getitem__`: the key's weighted penalty sum divided by
the global `max_distance` denominator (0.0 when that denominator is zero). -/
def Distance.getitem (w : String → ℚ) (d : Distance) (key : String) : ℚ :=
  let dist := ((d.penalties.lookup key).getD []).sum * w key
  if d.maxDistance w ≠ 0 then dist / d.maxDistance w else 0

/-- Model of `Distance.add`: checks `0.0 <= dist <= 1.0` before mutating; on
violation the Python code raises `ValueError` with the state untouched, which
is modelled by returning the unchanged state with an error message. -/
def Distance.add (d : Distance) (key : String) (dist : ℚ) : Distance × Option String :=
  if 0 ≤ dist ∧ dist ≤ 1 then (⟨addToAssoc d.penalties key [dist]⟩, none)
  else (d, some ("dist must be between 0.0 and 1.0"))

/-- Model of `Distance.add_number`: one 1.0 penalty per unit of absolute
difference via repeated `self.add` (the loop stops if an add raises), or a
single 0.0 penalty when the numbers are equal. -/
def Distance.add_number (d : Distance) (key : String) (number1 number2 : ℤ) :
    Distance × Option String :=
  let diff := (number1 - number2).natAbs
  if diff ≠ 0 then
    (List.range diff).foldl
      (fun st _ =>
        match st with
        | (d1, none) => d1.add key 1
        | (d1, some e) => (d1, some e))
      (d, none)
  else d.add key 0

/-- A Python value passed to `Distance.__eq__`, `__lt__` or `update`: either a
plain number or another `Distance` instance. -/
inductive PyVal where
  | num : ℚ → PyVal
  | dist : Distance → PyVal
deriving DecidableEq

/-- Model of `Distance.update`: raises `ValueError` (state untouched) when the
argument is not a `Distance`; otherwise extends this accumulator's per-key
sequences with the other's, via `setdefault(key, []).extend(penalties)`. -/
def Distance.update (d : Distance) (other : PyVal) : Distance × Option String :=
  match other with
  | PyVal.dist d2 =>
      (⟨d2.penalties.foldl (fun acc e => addToAssoc acc e.1 e.2) d.penalties⟩, none)
  | PyVal.num _ => (d, some ("dist must be a Distance object"))

/-- Model of `Distance.__eq__`: `self.distance == other`. When `other` is a
number this compares the total against it. When `other` is another `Distance`,
Python evaluates `float == Distance`: `float.__eq__` returns `NotImplemented`,
so the reflected `Distance.__eq__(other, float)` runs and compares the two
totals. -/
def Distance.eqPy (w : String → ℚ) (d : Distance) : PyVal → Bool
  | PyVal.num x => decide (d.distance w = x)
  | PyVal.dist d2 => decide (d.distance w = d2.distance w)

/-- Model of `Distance.__lt__`: `self.distance < other`. When `other` is
another `Distance`, Python's reflected dispatch (via `total_ordering`) again
reduces to comparing the two totals. -/
def Distance.ltPy (w : String → ℚ) (d : Distance) : PyVal → Bool
  | PyVal.num x => decide (d.distance w < x)
  | PyVal.dist d2 => decide (d.distance w < d2.distance w)

/-- The sort order used by `Distance.items`: Python sorts ascending by the
pair `(-dist, key)`, i.e. descending weighted distance with ties broken by
ascending key name. -/
def itemsLE (a b : String × ℚ) : Prop :=
  b.2 < a.2 ∨ (a.2 = b.2 ∧ a.1 ≤ b.1)

instance : DecidableRel itemsLE := fun a b => by
  unfold itemsLE
  infer_instance

instance : IsTotal (String × ℚ) itemsLE where
  total a b := by
    unfold itemsLE
    rcases lt_trichotomy a.2 b.2 with h | h | h
    · exact Or.inr (Or.inl h)
    · rcases le_total a.1 b.1 with h1 | h1
      · exact Or.inl (Or.inr ⟨h, h1⟩)
      · exact Or.inr (Or.inr ⟨h.symm, h1⟩)
    · exact Or.inl (Or.inl h)

instance : IsTrans (String × ℚ) itemsLE where
  trans a b c hab hbc := by
    unfold itemsLE at *
    rcases hab with h1 | ⟨h1, h1k⟩
    · rcases hbc with h2 | ⟨h2, _⟩
      · exact Or.inl (h2.trans h1)
      · exact Or.inl (h2 ▸ h1)
    · rcases hbc with h2 | ⟨h2, h2k⟩
      · exact Or.inl (h1 ▸ h2)
      · exact Or.inr ⟨h1.trans h2, h1k.trans h2k⟩

/-- Model of `Distance.items`: the `(key, self[key])` pairs whose weighted
per-key distance is nonzero (Python float truthiness in `if dist:`), sorted
ascending by `(-dist, key)`. -/
def Distance.items (w : String → ℚ) (d : Distance) : List (String × ℚ) :=
  let list := d.penalties.filterMap (fun e =>
    let dist := d.getitem w e.1
    if dist ≠ 0 then some (e.1, dist) else none)
  List.insertionSort itemsLE list

/-- Levenshtein edit distance with unit costs, modelling the external
jellyfish `levenshtein_distance` used by `_string_dist_basic`. -/
def lev : List Char → List Char → Nat
  | [], ys => ys.length
  | xs, [] => xs.length
  | x :: xs, y :: ys =>
    if x = y then lev xs ys
    else 1 + min (lev xs ys) (min (lev (x :: xs) ys) (lev xs (y :: ys)))
termination_by xs ys => xs.length + ys.length
decreasing_by
  all_goals simp_arith [List.length_cons]

/-- Modelled from the spec: the external `unidecode` transliteration (composed
with `as_string`) maps text to a plain-ASCII-equivalent representation. ASCII
characters map to themselves; this model drops other characters, which the
following `[^a-z0-9]` strip removes in any case. -/
def unidecodeChar (c : Char) : List Char :=
  if c.toNat < 128 then [c] else []

/-- Model of Python `str.lower` on the ASCII range. -/
def pyLower (s : List Char) : List Char := s.map Char.toLower

/-- Is the character in the class `[a-z0-9]` kept by the normalization of
`_string_dist_basic`? -/
def isLowerAlnum (c : Char) : Bool :=
  (decide ('a' ≤ c) && decide (c ≤ 'z')) || (decide ('0' ≤ c) && decide (c ≤ '9'))

/-- Model of `_string_dist_basic`: transliterate, lowercase, strip everything
outside `[a-z0-9]`, then the Levenshtein distance normalized by the longer
length; 0.0 when both normalized strings are empty. -/
def string_dist_basic (str1 str2 : List Char) : ℚ :=
  let t1 := (pyLower (str1.flatMap unidecodeChar)).filter isLowerAlnum
  let t2 := (pyLower (str2.flatMap unidecodeChar)).filter isLowerAlnum
  if t1 = [] ∧ t2 = [] then 0
  else (lev t1 t2 : ℚ) / (max t1.length t2.length : ℚ)

/-- `SD_END_WORDS`: the words movable from a trailing ", word" phrase to the
front of the string. -/
def SD_END_WORDS : List (List Char) :=
  [("the").toList, ("a").toList, ("an").toList]

/-- One step of the `SD_END_WORDS` loop in `string_dist`: when the string ends
with ", word", rewrite it to "word " followed by the remainder. -/
def moveEndWord (s : List Char) (word : List Char) : List Char :=
  if ((([ ',', ' ']) ++ word)).isSuffixOf s then
    word ++ ([ ' ']) ++ s.take (s.length - (word.length + 2))
  else s

/-- Model of the `SD_REPLACE` substitution: every literal ampersand becomes
the word "and". -/
def replaceAmp : List Char → List Char
  | [] => []
  | c :: rest =>
    (if c = '&' then [ 'a', 'n', 'd'] else [c]) ++ replaceAmp rest

/-- Model of `re.sub(pattern, '', s)` for patterns that cannot match the empty
string: scan left to right, delete each match, and continue scanning after
the deleted span. The matcher returns the length of the match starting at the
given position, if any. -/
def subAll (m : List Char → Option Nat) : List Char → List Char
  | [] => []
  | c :: rest =>
    match m (c :: rest) with
    | some (k + 1) => subAll m ((c :: rest).drop (k + 1))
    | _ => c :: subAll m rest
termination_by s => s.length
decreasing_by
  all_goals simp_arith [List.length_drop]

/-- The number of characters the regex `.` can consume greedily from this
position: everything up to (not including) the next newline. -/
def dotSpan (s : List Char) : Nat :=
  (s.takeWhile (fun c => c != '\n')).length

/-- Model of `re.sub('^the ', '', s)`: the anchored pattern deletes one
leading "the " occurrence. -/
def subLeadingThe (s : List Char) : List Char :=
  if (([ 't', 'h', 'e', ' '])).isPrefixOf s then s.drop 4 else s

/-- The `(ep|single)` core of the second `SD_PATTERNS` regex: the match length
at this position, trying "ep" before "single" as the ordered alternation
does. -/
def epSingleCore (s : List Char) : Option Nat :=
  if (([ 'e', 'p'])).isPrefixOf s then some 2
  else if (([ 's', 'i', 'n', 'g', 'l', 'e'])).isPrefixOf s then some 6
  else none

/-- Matcher for the second `SD_PATTERNS` regex: optional opening bracket,
"ep" or "single", optional closing bracket (both optionals greedy). When the
bracket branch fails, the backtrack without the bracket cannot succeed since
the core starts with a letter. -/
def epSingleMatch (s : List Char) : Option Nat :=
  match s with
  | [] => none
  | c :: rest =>
    if c = '[' ∨ c = '(' then
      match epSingleCore rest with
      | some k =>
        some (1 + k + (match rest.drop k with
          | c2 :: _ => if c2 = ']' ∨ c2 = ')' then 1 else 0
          | [] => 0))
      | none => none
    else
      match epSingleCore s with
      | some k =>
        some (k + (match s.drop k with
          | c2 :: _ => if c2 = ']' ∨ c2 = ')' then 1 else 0
          | [] => 0))
      | none => none

/-- Is the character in the separator class of the feat-credit regex (dot,
space or colon)? -/
def isFeatSep (c : Char) : Bool :=
  (c == '.') || (c == ' ') || (c == ':')

/-- Try one word alternative of the feat-credit regex at this position: the
word, a separator from the class, then at least one `.`-matched character,
consumed greedily to the end of the line. -/
def featAlt (word : List Char) (s : List Char) : Option Nat :=
  if word.isPrefixOf s then
    match s.drop word.length with
    | c :: rest =>
      if isFeatSep c ∧ 0 < dotSpan rest then
        some (word.length + 1 + dotSpan rest)
      else none
    | [] => none
  else none

/-- Matcher for the feat-credit regex: optional opening bracket, then the
first of "featuring", "feat", "ft" whose alternative completes a match. -/
def featMatch (s : List Char) : Option Nat :=
  let core := fun (t : List Char) =>
    match featAlt (("featuring").toList) t with
    | some k => some k
    | none =>
      match featAlt (("feat").toList) t with
      | some k => some k
      | none => featAlt (("ft").toList) t
  match s with
  | [] => none
  | c :: rest =>
    if c = '[' ∨ c = '(' then
      match core rest with
      | some k => some (1 + k)
      | none => none
    else core s

/-- Matcher for the non-greedy bracketed patterns: the opening delimiter, the
shortest run of `.`-matched characters, then the closing delimiter. -/
def bracketMatch (openC closeC : Char) (s : List Char) : Option Nat :=
  match s with
  | [] => none
  | c :: rest =>
    if c = openC then
      let inner := rest.takeWhile (fun c2 => (c2 != closeC) && (c2 != '\n'))
      if (rest.drop inner.length).head? = some closeC then
        some (inner.length + 2)
      else none
    else none

/-- The `(pt\.|part) .+` core of the part-suffix regex at this position:
"pt." or "part" (tried in that order), a space, then at least one
`.`-matched character. -/
def partCore (s : List Char) : Option Nat :=
  let alt := fun (word : List Char) =>
    if word.isPrefixOf s then
      match s.drop word.length with
      | c :: rest =>
        if c = ' ' ∧ 0 < dotSpan rest then some (word.length + 1 + dotSpan rest)
        else none
      | [] => none
    else none
  match alt (("pt.").toList) with
  | some k => some k
  | none => alt (("part").toList)

/-- Matcher for the part-suffix regex: optional ", " then the core. When the
optional group is taken and the core fails, the backtrack without it cannot
succeed since the core's words do not start with a comma. -/
def partMatch (s : List Char) : Option Nat :=
  if (([ ',', ' '])).isPrefixOf s then
    match partCore (s.drop 2) with
    | some k => some (2 + k)
    | none => none
  else partCore s

/-- `SD_PATTERNS`: the fixed ordered pattern list of `string_dist`, each
regex represented by the function deleting its matches, paired with its
penalty weight. -/
def SD_PATTERNS : List ((List Char → List Char) × ℚ) :=
  [(subLeadingThe, 1/10),
   (subAll epSingleMatch, 0),
   (subAll featMatch, 1/10),
   (subAll (bracketMatch '(' ')'), 3/10),
   (subAll (bracketMatch '[' ']'), 3/10),
   (subAll partMatch, 2/10)]

/-- The state threaded through the `SD_PATTERNS` loop of `string_dist`: the
two working strings, the current baseline distance, and the accumulated
penalty. -/
structure SDState where
  str1 : List Char
  str2 : List Char
  base : ℚ
  penalty : ℚ

/-- One iteration of the `SD_PATTERNS` loop of `string_dist`: delete the
pattern from both strings; when something was deleted and the recomputed
basic distance improves on the baseline, shift to the reduced strings and add
the weighted improvement to the penalty. -/
def sdStep (st : SDState) (pw : (List Char → List Char) × ℚ) : SDState :=
  let case_str1 := pw.1 st.str1
  let case_str2 := pw.1 st.str2
  if case_str1 ≠ st.str1 ∨ case_str2 ≠ st.str2 then
    let case_dist := string_dist_basic case_str1 case_str2
    let case_delta := max 0 (st.base - case_dist)
    if case_delta = 0 then st
    else ⟨case_str1, case_str2, case_dist, st.penalty + pw.2 * case_delta⟩
  else st

/-- The normalization applied by `string_dist` before the pattern loop:
lowercase, move the `SD_END_WORDS` trailing articles to the front, apply the
`SD_REPLACE` ampersand substitution. -/
def sdPreprocess (s : List Char) : List Char :=
  replaceAmp (SD_END_WORDS.foldl moveEndWord (pyLower s))

/-- Model of `string_dist`: 0.0 when both strings are absent, 1.0 when
exactly one is, and otherwise the `SD_PATTERNS` refinement of the basic
distance of the preprocessed strings, returning the final baseline plus the
accumulated penalty. -/
def string_dist (str1 str2 : Option (List Char)) : ℚ :=
  match str1, str2 with
  | none, none => 0
  | none, some _ => 1
  | some _, none => 1
  | some a, some b =>
    let a1 := sdPreprocess a
    let b1 := sdPreprocess b
    let st := SD_PATTERNS.foldl sdStep ⟨a1, b1, string_dist_basic a1 b1, 0⟩
    st.base + st.penalty

/-- A `MusicBrainzAPIError` raised by a metadata-source call (the spec's
ServiceError). -/
structure ServiceError where
  msg : String
deriving DecidableEq

/-- Model of `invoke_mb`: the outcome of the wrapped call is either a
candidate sequence or a raised error; the error is caught (and logged) and an
empty sequence is returned instead. -/
def invoke_mb {α : Type} (call : Except ServiceError (List α)) : List α :=
  match call with
  | Except.ok xs => xs
  | Except.error _ => []

/-- The inputs of one `album_candidates` aggregation call: configuration
flags, the outcomes of the two possible MusicBrainz searches, and the
candidates contributed by plugin sources. -/
structure AggInputs (α : Type) where
  mbEnabled : Bool
  artistPresent : Bool
  albumPresent : Bool
  vaLikely : Bool
  searchResult : Except ServiceError (List α)
  vaSearchResult : Except ServiceError (List α)
  pluginCandidates : List α

/-- Model of `album_candidates`: the MusicBrainz name-pair search (when
MusicBrainz is enabled and both names are truthy), then the various-artists
search (when likely), each through `invoke_mb`, followed by the plugin
candidates. -/
def album_candidates {α : Type} (inp : AggInputs α) : List α :=
  (if inp.mbEnabled then
    (if inp.artistPresent ∧ inp.albumPresent then invoke_mb inp.searchResult else [])
      ++ (if inp.vaLikely ∧ inp.albumPresent then invoke_mb inp.vaSearchResult else [])
  else [])
  ++ inp.pluginCandidates

/-- The state of a `TrackInfo` object as far as the deep-copy claim observes
it; the title is the mutated field. -/
structure TrackData where
  title : Option String
deriving DecidableEq

/-- A reference to (the identity of) a `TrackInfo` object. -/
abbrev TrackRef := Nat

/-- The Python object heap for `TrackInfo` objects: cell `i` is the state of
the object whose identity is `i`. -/
structure THeap where
  cells : List TrackData

/-- Read a track object's state from the heap. -/
def THeap.get (h : THeap) (r : TrackRef) : TrackData :=
  h.cells.getD r ⟨none⟩

/-- Allocate a new `TrackInfo` object with the given state; its identity is
fresh, distinct from every existing reference. -/
def THeap.alloc (h : THeap) (t : TrackData) : THeap × TrackRef :=
  (⟨h.cells ++ [t]⟩, h.cells.length)

/-- Model of `TrackInfo.copy`: a fresh `TrackInfo` object updated with all of
the original's fields. -/
def copyTrack (h : THeap) (r : TrackRef) : THeap × TrackRef :=
  h.alloc (h.get r)

/-- Model of the list comprehension in `AlbumInfo.copy`: copy each track in
order, threading the heap. -/
def copyTracks (h : THeap) : List TrackRef → THeap × List TrackRef
  | [] => (h, [])
  | r :: rs =>
    let hr := copyTrack h r
    let rest := copyTracks hr.1 rs
    (rest.1, hr.2 :: rest.2)

/-- An `AlbumInfo` as far as the deep-copy claim observes it: the references
to its `TrackInfo` objects. -/
structure AlbumObj where
  tracks : List TrackRef

/-- Model of `AlbumInfo.copy`: a fresh `AlbumInfo` whose `tracks` field holds
copies of the original's tracks. -/
def AlbumObj.copy (h : THeap) (a : AlbumObj) : THeap × AlbumObj :=
  let res := copyTracks h a.tracks
  (res.1, ⟨res.2⟩)

/-- Model of mutating a track object's title field through a reference. -/
def setTitle (h : THeap) (r : TrackRef) (t : Option String) : THeap :=
  ⟨h.cells.set r ⟨t⟩⟩

/-- A weight table assigning weight 1 to every key, used to instantiate
theorems on concrete inputs. -/
def unitW : String → ℚ := fun _ => 1

/-! Theorems. -/

/-- In an association list with distinct keys, looking an entry's key up
yields that entry's value. -/
theorem lookup_of_nodup :
    ∀ {l : List (String × List ℚ)}, (l.map Prod.fst).Nodup →
      ∀ {e : String × List ℚ}, e ∈ l → l.lookup e.1 = some e.2 := by
  intro l
  induction l with
  | nil =>
    intro _ e he
    cases he
  | cons hd tl ih =>
    intro hnd e he
    simp only [List.map_cons, List.nodup_cons] at hnd
    rcases List.mem_cons.mp he with he | he
    · subst he
      simp [List.lookup]
    · have hne : (e.1 == hd.1) = false := by
        apply beq_eq_false_iff_ne.mpr
        intro hc
        exact hnd.1 (hc ▸ List.mem_map_of_mem Prod.fst he)
      simp only [List.lookup, hne]
      exact ih hnd.2 he

/-- A list of nonnegative rationals summing to zero is all zeros. -/
theorem sum_nonneg_all_zero {l : List ℚ} (h0 : ∀ x ∈ l, 0 ≤ x)
    (hs : l.sum = 0) : ∀ x ∈ l, x = 0 := by
  induction l with
  | nil => simp
  | cons a t ih =>
    simp only [List.sum_cons] at hs
    have ha : 0 ≤ a := h0 a (List.mem_cons_self a t)
    have ht : 0 ≤ t.sum := List.sum_nonneg (fun x hx => h0 x (List.mem_cons_of_mem a hx))
    have ha0 : a = 0 := by linarith
    have hts : t.sum = 0 := by linarith
    intro x hx
    rcases List.mem_cons.mp hx with hx | hx
    · exact hx.trans ha0
    · exact ih (fun y hy => h0 y (List.mem_cons_of_mem a hy)) hts x hx

/-- Claim C1: the normalized total equals the weighted penalty sum over all
keys divided by the weighted value-count sum over all keys; it is 0.0 when
that denominator is zero, and in particular 0.0 for an accumulator with no
penalties added. -/
theorem claim1_total_normalized (w : String → ℚ) (d : Distance) :
    ((d.penalties.map (fun e => (e.2.length : ℚ) * w e.1)).sum ≠ 0 →
      d.distance w = (d.penalties.map (fun e => e.2.sum * w e.1)).sum /
        (d.penalties.map (fun e => (e.2.length : ℚ) * w e.1)).sum)
    ∧ ((d.penalties.map (fun e => (e.2.length : ℚ) * w e.1)).sum = 0 →
        d.distance w = 0)
    ∧ Distance.empty.distance w = 0 := by
  have hmax : d.maxDistance w
      = (d.penalties.map (fun e => (e.2.length : ℚ) * w e.1)).sum := rfl
  have hraw : d.rawDistance w
      = (d.penalties.map (fun e => e.2.sum * w e.1)).sum := rfl
  refine ⟨fun h => ?_, fun h => ?_, ?_⟩
  · unfold Distance.distance
    rw [hmax, hraw, if_pos h]
  · unfold Distance.distance
    rw [hmax, hraw]
    simp [h]
  · simp [Distance.distance, Distance.maxDistance, Distance.empty]

/-- Witness for C1 on a concrete accumulator with one penalty of 1/2 under
unit weights. -/
theorem claim1_witness :
    (((⟨[(("a"), [1/2])]⟩ : Distance).penalties.map
        (fun e => (e.2.length : ℚ) * unitW e.1)).sum ≠ 0)
    ∧ (⟨[(("a"), [1/2])]⟩ : Distance).distance unitW =
        ((⟨[(("a"), [1/2])]⟩ : Distance).penalties.map
          (fun e => e.2.sum * unitW e.1)).sum /
        ((⟨[(("a"), [1/2])]⟩ : Distance).penalties.map
          (fun e => (e.2.length : ℚ) * unitW e.1)).sum :=
  ⟨by simp [unitW], (claim1_total_normalized unitW ⟨[(("a"), [1/2])]⟩).1 (by simp [unitW])⟩

/-- Claim C2: the weighted per-key distance divides the key's weighted
penalty sum by the same global denominator used by the total, and the per-key
values summed over all keys with recorded penalties give back the total. -/
theorem claim2_per_key_global_denominator (w : String → ℚ) (d : Distance)
    (hnd : (d.penalties.map Prod.fst).Nodup) :
    (∀ e ∈ d.penalties, d.getitem w e.1 =
      if d.maxDistance w ≠ 0 then e.2.sum * w e.1 / d.maxDistance w else 0)
    ∧ (d.penalties.map (fun e => d.getitem w e.1)).sum = d.distance w := by
  have hpk : ∀ e ∈ d.penalties, d.getitem w e.1 =
      if d.maxDistance w ≠ 0 then e.2.sum * w e.1 / d.maxDistance w else 0 := by
    intro e he
    unfold Distance.getitem
    rw [lookup_of_nodup hnd he]
    rfl
  refine ⟨hpk, ?_⟩
  by_cases hM : d.maxDistance w = 0
  · have hz : ∀ e ∈ d.penalties, d.getitem w e.1 = 0 := by
      intro e he
      rw [hpk e he, if_neg (fun hc => hc hM)]
    have : ∀ x ∈ d.penalties.map (fun e => d.getitem w e.1), x = 0 := by
      intro x hx
      rcases List.mem_map.mp hx with ⟨e, he, hex⟩
      exact hex ▸ hz e he
    rw [List.sum_eq_zero this]
    unfold Distance.distance
    rw [if_neg (fun hc => hc hM)]
  · have hcongr : d.penalties.map (fun e => d.getitem w e.1)
        = d.penalties.map (fun e => e.2.sum * w e.1 * (d.maxDistance w)⁻¹) := by
      apply List.map_congr_left
      intro e he
      rw [hpk e he, if_pos hM, div_eq_mul_inv]
    rw [hcongr, List.sum_map_mul_right]
    unfold Distance.distance
    rw [if_pos hM, div_eq_mul_inv]
    rfl

/-- Witness for C2 on a concrete two-key accumulator under unit weights. -/
theorem claim2_witness :
    (((⟨[(("a"), [1/2]), (("b"), [1])]⟩ : Distance).penalties.map Prod.fst).Nodup)
    ∧ ((∀ e ∈ (⟨[(("a"), [1/2]), (("b"), [1])]⟩ : Distance).penalties,
        (⟨[(("a"), [1/2]), (("b"), [1])]⟩ : Distance).getitem unitW e.1 =
          if (⟨[(("a"), [1/2]), (("b"), [1])]⟩ : Distance).maxDistance unitW ≠ 0 then
            e.2.sum * unitW e.1 / (⟨[(("a"), [1/2]), (("b"), [1])]⟩ : Distance).maxDistance unitW
          else 0)
      ∧ ((⟨[(("a"), [1/2]), (("b"), [1])]⟩ : Distance).penalties.map
          (fun e => (⟨[(("a"), [1/2]), (("b"), [1])]⟩ : Distance).getitem unitW e.1)).sum =
        (⟨[(("a"), [1/2]), (("b"), [1])]⟩ : Distance).distance unitW) :=
  ⟨by decide, claim2_per_key_global_denominator unitW ⟨[(("a"), [1/2]), (("b"), [1])]⟩ (by decide)⟩

/-- Claim C5: `add` raises exactly when the value is outside [0,1] and the
penalty state is unchanged on that error; `update` raises exactly when its
argument is not a `Distance`. -/
theorem claim5_contract_errors (d : Distance) (key : String) (v x : ℚ)
    (d2 : Distance) :
    ((d.add key v).2 ≠ none ↔ v < 0 ∨ 1 < v)
    ∧ (v < 0 ∨ 1 < v → (d.add key v).1 = d)
    ∧ (d.update (PyVal.num x)).2 ≠ none
    ∧ (d.update (PyVal.dist d2)).2 = none := by
  unfold Distance.add Distance.update
  refine ⟨?_, ?_, by simp, by simp⟩
  · by_cases h : 0 ≤ v ∧ v ≤ 1
    · rw [if_pos h]
      simp only [ne_eq, not_true_eq_false, false_iff]
      push_neg
      constructor
      · linarith [h.1]
      · linarith [h.2]
    · rw [if_neg h]
      simp only [ne_eq, reduceCtorEq, not_false_eq_true, true_iff]
      push_neg at h
      rcases le_or_lt 0 v with h0 | h0
      · exact Or.inr (lt_of_not_le (fun hc => absurd (h h0) (not_lt.mpr hc)))
      · exact Or.inl h0
  · intro hv
    rw [if_neg]
    rintro ⟨h1, h2⟩
    rcases hv with hv | hv
    · linarith
    · linarith

/-- Witness for C5: adding the out-of-range value 2 errors and leaves the
accumulator unchanged. -/
theorem claim5_witness :
    ((2 : ℚ) < 0 ∨ (1 : ℚ) < 2) ∧ (Distance.empty.add ("a") 2).1 = Distance.empty :=
  ⟨Or.inr (by norm_num),
   (claim5_contract_errors Distance.empty ("a") 2 0 Distance.empty).2.1
     (Or.inr (by norm_num))⟩

/-- Appending twice to the same key of the penalty association list is one
append of the concatenation. -/
theorem addToAssoc_append (l : List (String × List ℚ)) (k : String)
    (vs vs' : List ℚ) :
    addToAssoc (addToAssoc l k vs) k vs' = addToAssoc l k (vs ++ vs') := by
  induction l with
  | nil => simp [addToAssoc]
  | cons hd tl ih =>
    rcases hd with ⟨k1, l1⟩
    by_cases h : k1 = k
    · simp [addToAssoc, h]
    · simp [addToAssoc, h, ih]

/-- The `add_number` loop over a positive difference appends that many 1.0
penalties and never errors. -/
theorem add_number_fold (d : Distance) (key : String) (n : ℕ) :
    (List.range (n + 1)).foldl
      (fun st _ =>
        match st with
        | (d1, none) => d1.add key 1
        | (d1, some e) => (d1, some e))
      (d, none)
    = (⟨addToAssoc d.penalties key (List.replicate (n + 1) 1)⟩, none) := by
  induction n with
  | zero =>
    simp [List.range_succ, Distance.add]
  | succ m ih =>
    rw [List.range_succ, List.foldl_append, ih]
    simp only [List.foldl_cons, List.foldl_nil]
    have h1 : (0 : ℚ) ≤ 1 ∧ (1 : ℚ) ≤ 1 := by norm_num
    simp only [Distance.add, if_pos h1]
    rw [addToAssoc_append]
    rw [← List.replicate_succ']

/-- Claim C6 (amended): `add_number` appends exactly |n1 − n2| penalties of
1.0 when the numbers differ and a single 0.0 when they are equal, and never
errors; with a single key, the raw weighted distance is |n1 − n2| times the
weight, but the normalized total is 1.0 for any nonzero difference under a
positive weight (so it is not strictly monotone in the difference), and 0.0
for equal numbers. -/
theorem claim6_add_number (d : Distance) (key : String) (n1 n2 : ℤ)
    (w : String → ℚ) :
    ((d.add_number key n1 n2).2 = none)
    ∧ (n1 ≠ n2 → (d.add_number key n1 n2).1.penalties =
        addToAssoc d.penalties key (List.replicate (n1 - n2).natAbs 1))
    ∧ (n1 = n2 → (d.add_number key n1 n2).1.penalties =
        addToAssoc d.penalties key [0])
    ∧ (Distance.rawDistance w (Distance.empty.add_number key n1 n2).1 =
        ((n1 - n2).natAbs : ℚ) * w key)
    ∧ (0 < w key → n1 ≠ n2 →
        Distance.distance w (Distance.empty.add_number key n1 n2).1 = 1)
    ∧ (n1 = n2 →
        Distance.distance w (Distance.empty.add_number key n1 n2).1 = 0) := by
  by_cases hne : n1 = n2
  · have hd0 : (n1 - n2).natAbs = 0 := by
      simp [hne]
    have heq : ∀ d0 : Distance, d0.add_number key n1 n2 =
        (⟨addToAssoc d0.penalties key [0]⟩, none) := by
      intro d0
      unfold Distance.add_number
      rw [hd0]
      simp [Distance.add]
    refine ⟨by rw [heq d], fun hc => absurd hne hc, fun _ => by rw [heq d], ?_, ?_, ?_⟩
    · rw [heq Distance.empty, hd0]
      simp [Distance.rawDistance, Distance.empty, addToAssoc]
    · intro _ hc
      exact absurd hne hc
    · intro _
      rw [heq Distance.empty]
      simp only [Distance.distance, Distance.rawDistance, Distance.empty, addToAssoc]
      split
      · simp [addToAssoc]
      · rfl
  · obtain ⟨m, hm⟩ : ∃ m, (n1 - n2).natAbs = m + 1 := by
      have : (n1 - n2).natAbs ≠ 0 := by
        simp only [ne_eq, Int.natAbs_eq_zero, sub_eq_zero]
        exact hne
      exact Nat.exists_eq_succ_of_ne_zero this
    have heq : ∀ d0 : Distance, d0.add_number key n1 n2 =
        (⟨addToAssoc d0.penalties key (List.replicate (m + 1) 1)⟩, none) := by
      intro d0
      unfold Distance.add_number
      rw [hm]
      simp only [ne_eq, Nat.succ_ne_zero, not_false_eq_true, if_pos]
      exact add_number_fold d0 key m
    have hpen : (Distance.empty.add_number key n1 n2).1.penalties =
        [(key, List.replicate (m + 1) (1 : ℚ))] := by
      rw [heq Distance.empty]
      rfl
    refine ⟨by rw [heq d], fun _ => by rw [heq d, hm], fun hc => absurd hc hne, ?_, ?_, fun hc => absurd hc hne⟩
    · rw [hm]
      unfold Distance.rawDistance
      rw [hpen]
      simp [List.sum_replicate, nsmul_eq_mul]
    · intro hw _
      unfold Distance.distance Distance.rawDistance Distance.maxDistance
      rw [hpen]
      have hlen : ((List.replicate (m + 1) (1 : ℚ)).length : ℚ) = (m + 1 : ℚ) := by
        simp
      have hsum : (List.replicate (m + 1) (1 : ℚ)).sum = (m + 1 : ℚ) := by
        simp [List.sum_replicate, nsmul_eq_mul]
      simp only [List.map_cons, List.map_nil, List.sum_cons, List.sum_nil, hlen, hsum,
        add_zero]
      have hmp : (0 : ℚ) < (m + 1 : ℚ) := by positivity
      have hne2 : (m + 1 : ℚ) * w key ≠ 0 := by
        positivity
      rw [if_pos hne2]
      field_simp

/-- Counterexample to C6 as stated: under weight 1.0 for "year" and no other
keys, a year difference of 3 does not score higher than a difference of 1 —
both normalized totals are 1.0. -/
theorem claim6_counterexample :
    ¬ (Distance.distance unitW (Distance.empty.add_number ("year") 2000 2001).1
       < Distance.distance unitW (Distance.empty.add_number ("year") 2000 2003).1) := by
  have h1 : (Distance.empty.add_number ("year") 2000 2001).1.penalties
      = [(("year"), [1])] := by
    unfold Distance.add_number
    have habs : ((2000 : ℤ) - 2001).natAbs = 0 + 1 := by norm_num
    rw [habs]
    simp only [ne_eq, Nat.succ_ne_zero, not_false_eq_true, if_pos]
    rw [add_number_fold Distance.empty ("year") 0]
    simp [Distance.empty, addToAssoc]
  have h3 : (Distance.empty.add_number ("year") 2000 2003).1.penalties
      = [(("year"), [1, 1, 1])] := by
    unfold Distance.add_number
    have habs : ((2000 : ℤ) - 2003).natAbs = 2 + 1 := by norm_num
    rw [habs]
    simp only [ne_eq, Nat.succ_ne_zero, not_false_eq_true, if_pos]
    rw [add_number_fold Distance.empty ("year") 2]
    simp [Distance.empty, addToAssoc]
  have e1 : Distance.distance unitW (Distance.empty.add_number ("year") 2000 2001).1 = 1 := by
    unfold Distance.distance Distance.rawDistance Distance.maxDistance
    rw [h1]
    norm_num [unitW]
  have e3 : Distance.distance unitW (Distance.empty.add_number ("year") 2000 2003).1 = 1 := by
    unfold Distance.distance Distance.rawDistance Distance.maxDistance
    rw [h3]
    norm_num [unitW]
  rw [e1, e3]
  exact lt_irrefl 1

/-- Witness for C6 (amended): a concrete difference of 3 under unit weights
yields the stated penalties and a normalized total of exactly 1. -/
theorem claim6_witness :
    ((0 : ℚ) < unitW ("year")) ∧ ((2000 : ℤ) ≠ 2003)
    ∧ Distance.distance unitW (Distance.empty.add_number ("year") 2000 2003).1 = 1 :=
  ⟨by norm_num [unitW], by norm_num,
   ((claim6_add_number Distance.empty ("year") 2000 2003 unitW).2.2.2.2.1
     (by norm_num [unitW]) (by norm_num))⟩

/-- Claim C10 (amended): comparison against plain numbers is by the
normalized total, and comparing two accumulators (through Python's reflected
dispatch) compares their totals — so two distinct instances with equal totals
are equal. -/
theorem claim10_compare_by_total (w : String → ℚ) (d d2 : Distance) (x : ℚ) :
    (d.eqPy w (PyVal.num x) = true ↔ d.distance w = x)
    ∧ (d.ltPy w (PyVal.num x) = true ↔ d.distance w < x)
    ∧ (d.eqPy w (PyVal.dist d2) = true ↔ d.distance w = d2.distance w) := by
  refine ⟨?_, ?_, ?_⟩ <;> simp [Distance.eqPy, Distance.ltPy]

/-- Counterexample to C10 as stated: two distinct accumulator instances (an
empty one and one holding a 0.0 penalty) compare equal, because both totals
are 0.0. -/
theorem claim10_counterexample :
    ((Distance.empty : Distance) ≠ ⟨[(("album"), [0])]⟩)
    ∧ Distance.eqPy unitW Distance.empty (PyVal.dist ⟨[(("album"), [0])]⟩) = true := by
  constructor
  · intro hc
    have : (Distance.empty : Distance).penalties = [(("album"), [(0 : ℚ)])] := by
      rw [hc]
    simp [Distance.empty] at this
  · simp only [Distance.eqPy, decide_eq_true_eq]
    unfold Distance.distance Distance.rawDistance Distance.maxDistance
    norm_num [Distance.empty, unitW]

/-- Under nonnegative weights, a key's normalized per-key distance is nonzero
exactly when its weighted penalty sum is nonzero. -/
theorem getitem_ne_zero_iff (w : String → ℚ) (d : Distance)
    (hw : ∀ k, 0 ≤ w k) (hnd : (d.penalties.map Prod.fst).Nodup)
    {k : String} {p : List ℚ} (hkp : (k, p) ∈ d.penalties) :
    d.getitem w k ≠ 0 ↔ p.sum * w k ≠ 0 := by
  have hlk : d.penalties.lookup k = some p :=
    lookup_of_nodup hnd (e := (k, p)) hkp
  unfold Distance.getitem
  simp only [hlk, Option.getD_some]
  by_cases hM : d.maxDistance w = 0
  · rw [if_neg (fun hc => hc hM)]
    have hM0 : (d.penalties.map (fun e => (e.2.length : ℚ) * w e.1)).sum = 0 := hM
    have h0 : ∀ x ∈ d.penalties.map (fun e => (e.2.length : ℚ) * w e.1), 0 ≤ x := by
      intro x hx
      rcases List.mem_map.mp hx with ⟨e, _, hex⟩
      exact hex ▸ mul_nonneg (Nat.cast_nonneg _) (hw e.1)
    have hterm : ((p.length : ℚ) * w k) = 0 :=
      sum_nonneg_all_zero h0 hM0 _
        (List.mem_map_of_mem (fun e => (e.2.length : ℚ) * w e.1) hkp)
    have hz : p.sum * w k = 0 := by
      rcases mul_eq_zero.mp hterm with h | h
      · have : p = [] := List.length_eq_zero.mp (Nat.cast_eq_zero.mp h)
        simp [this]
      · simp [h]
    simp [hz]
  · rw [if_pos hM, div_ne_zero_iff]
    exact ⟨fun h => h.1, fun h => ⟨h, hM⟩⟩

/-- Claim C7: `items()` contains exactly the keys whose weighted per-key
value is nonzero, sorted by descending weighted value with ties broken by
ascending key name. -/
theorem claim7_items_sorted (w : String → ℚ) (d : Distance)
    (hw : ∀ k, 0 ≤ w k) (hnd : (d.penalties.map Prod.fst).Nodup) :
    (∀ k v, (k, v) ∈ d.items w ↔
      ∃ p, (k, p) ∈ d.penalties ∧ p.sum * w k ≠ 0 ∧ v = d.getitem w k)
    ∧ List.Pairwise (fun a b : String × ℚ => b.2 < a.2 ∨ (a.2 = b.2 ∧ a.1 ≤ b.1))
        (d.items w) := by
  constructor
  · intro k v
    unfold Distance.items
    rw [List.mem_insertionSort, List.mem_filterMap]
    constructor
    · rintro ⟨e, he, hfe⟩
      dsimp only at hfe
      split at hfe
      · rcases Prod.mk.injEq .. ▸ Option.some.injEq .. ▸ hfe with hke
        have hk : e.1 = k := congrArg Prod.fst (Option.some.inj hfe)
        have hv : v = d.getitem w e.1 := (congrArg Prod.snd (Option.some.inj hfe)).symm
        refine ⟨e.2, ?_, ?_, ?_⟩
        · exact hk ▸ (Prod.mk.eta (p := e) ▸ he)
        · have hz : d.getitem w e.1 ≠ 0 := by assumption
          rw [← hk]
          exact (getitem_ne_zero_iff w d hw hnd (Prod.mk.eta (p := e) ▸ he)).mp hz
        · rw [hv, hk]
      · cases hfe
    · rintro ⟨p, hkp, hnz, hv⟩
      refine ⟨(k, p), hkp, ?_⟩
      dsimp only
      rw [if_pos ((getitem_ne_zero_iff w d hw hnd hkp).mpr hnz), hv]
  · exact (List.sorted_insertionSort itemsLE _).imp (fun h => h)

/-- Witness for C7 on three keys of equal nonzero value under unit weights. -/
theorem claim7_witness :
    (∀ k, 0 ≤ unitW k)
    ∧ (((⟨[(("b"), [1/2]), (("c"), [1/2]), (("a"), [1/2])]⟩ : Distance).penalties.map
        Prod.fst).Nodup)
    ∧ ((∀ k v,
        (k, v) ∈ (⟨[(("b"), [1/2]), (("c"), [1/2]), (("a"), [1/2])]⟩ : Distance).items unitW ↔
        ∃ p, (k, p) ∈ (⟨[(("b"), [1/2]), (("c"), [1/2]), (("a"), [1/2])]⟩ : Distance).penalties
          ∧ p.sum * unitW k ≠ 0
          ∧ v = (⟨[(("b"), [1/2]), (("c"), [1/2]), (("a"), [1/2])]⟩ : Distance).getitem unitW k)
      ∧ List.Pairwise (fun a b : String × ℚ => b.2 < a.2 ∨ (a.2 = b.2 ∧ a.1 ≤ b.1))
          ((⟨[(("b"), [1/2]), (("c"), [1/2]), (("a"), [1/2])]⟩ : Distance).items unitW)) :=
  ⟨fun _ => by norm_num [unitW], by decide,
   claim7_items_sorted unitW ⟨[(("b"), [1/2]), (("c"), [1/2]), (("a"), [1/2])]⟩
     (fun _ => by norm_num [unitW]) (by decide)⟩

/-- The Levenshtein distance from a string to itself is zero. -/
theorem lev_self : ∀ l : List Char, lev l l = 0
  | [] => by simp [lev]
  | c :: rest => by simp [lev, lev_self rest]

/-- The Levenshtein distance is at most the longer length. -/
theorem lev_le_max (xs : List Char) : ∀ ys : List Char,
    lev xs ys ≤ max xs.length ys.length := by
  induction xs with
  | nil =>
    intro ys
    simp [lev]
  | cons x xs ih =>
    intro ys
    cases ys with
    | nil => simp [lev]
    | cons y ys =>
      by_cases h : x = y
      · have hxy := ih ys
        simp only [lev, if_pos h, List.length_cons]
        omega
      · have hxy := ih ys
        simp only [lev, if_neg h, List.length_cons]
        omega

/-- The basic string distance of a string with itself is zero. -/
theorem string_dist_basic_self (s : List Char) : string_dist_basic s s = 0 := by
  unfold string_dist_basic
  dsimp only
  split
  · rfl
  · simp [lev_self]

/-- The basic string distance is nonnegative. -/
theorem string_dist_basic_nonneg (s1 s2 : List Char) :
    0 ≤ string_dist_basic s1 s2 := by
  unfold string_dist_basic
  dsimp only
  split
  · norm_num
  · positivity

/-- The basic string distance is at most one. -/
theorem string_dist_basic_le_one (s1 s2 : List Char) :
    string_dist_basic s1 s2 ≤ 1 := by
  unfold string_dist_basic
  dsimp only
  split
  · norm_num
  · apply div_le_one_of_le₀
    · exact_mod_cast lev_le_max _ _
    · positivity

/-- On a state with equal working strings and zero baseline, a pattern step
does nothing. -/
theorem sdStep_self (st : SDState) (pw : (List Char → List Char) × ℚ)
    (h12 : st.str1 = st.str2) (hb : st.base = 0) : sdStep st pw = st := by
  unfold sdStep
  dsimp only
  split
  · have hcc : string_dist_basic (pw.1 st.str1) (pw.1 st.str2) = 0 := by
      rw [h12]
      exact string_dist_basic_self _
    rw [hb, hcc]
    norm_num
  · rfl

/-- A pattern step keeps the baseline nonnegative. -/
theorem sdStep_base_nonneg (st : SDState) (pw : (List Char → List Char) × ℚ)
    (hb : 0 ≤ st.base) : 0 ≤ (sdStep st pw).base := by
  unfold sdStep
  dsimp only
  split
  · split
    · exact hb
    · exact string_dist_basic_nonneg _ _
  · exact hb

/-- A pattern step with nonnegative weight keeps the penalty nonnegative. -/
theorem sdStep_penalty_nonneg (st : SDState) (pw : (List Char → List Char) × ℚ)
    (hw : 0 ≤ pw.2) (hp : 0 ≤ st.penalty) : 0 ≤ (sdStep st pw).penalty := by
  unfold sdStep
  dsimp only
  split
  · split
    · exact hp
    · have : (0 : ℚ) ≤ max 0 (st.base - string_dist_basic (pw.1 st.str1) (pw.1 st.str2)) :=
        le_max_left _ _
      have := mul_nonneg hw this
      dsimp only
      linarith
  · exact hp

/-- A pattern step with weight at most one never increases the final score
baseline-plus-penalty. -/
theorem sdStep_sum_le (st : SDState) (pw : (List Char → List Char) × ℚ)
    (hw1 : pw.2 ≤ 1) :
    (sdStep st pw).base + (sdStep st pw).penalty ≤ st.base + st.penalty := by
  unfold sdStep
  dsimp only
  split
  · split
    · exact le_refl _
    · rename_i hne
      set c := string_dist_basic (pw.1 st.str1) (pw.1 st.str2) with hc
      have hdpos : 0 < st.base - c := by
        rcases lt_or_le c st.base with h | h
        · linarith
        · exact absurd (max_eq_left (by linarith)) hne
      have hmax : max 0 (st.base - c) = st.base - c := max_eq_right (by linarith)
      rw [hmax]
      dsimp only
      have hmul : pw.2 * (st.base - c) ≤ st.base - c :=
        mul_le_of_le_one_left (by linarith) hw1
      linarith
  · exact le_refl _

/-- Every weight in `SD_PATTERNS` lies in [0, 1]. -/
theorem sd_patterns_weights :
    ∀ pw ∈ SD_PATTERNS, 0 ≤ pw.2 ∧ pw.2 ≤ 1 := by
  intro pw hpw
  fin_cases hpw <;> norm_num

/-- The pattern fold keeps the state componentwise bounded: baseline and
penalty stay nonnegative and their sum never increases. -/
theorem sd_fold_bounds (pats : List ((List Char → List Char) × ℚ))
    (hp : ∀ pw ∈ pats, 0 ≤ pw.2 ∧ pw.2 ≤ 1) :
    ∀ st : SDState, 0 ≤ st.base → 0 ≤ st.penalty →
      0 ≤ (pats.foldl sdStep st).base ∧ 0 ≤ (pats.foldl sdStep st).penalty
      ∧ (pats.foldl sdStep st).base + (pats.foldl sdStep st).penalty
        ≤ st.base + st.penalty := by
  induction pats with
  | nil =>
    intro st hb hpen
    exact ⟨hb, hpen, le_refl _⟩
  | cons p ps ih =>
    intro st hb hpen
    have hp0 := hp p (List.mem_cons_self p ps)
    have hps : ∀ pw ∈ ps, 0 ≤ pw.2 ∧ pw.2 ≤ 1 :=
      fun pw hpw => hp pw (List.mem_cons_of_mem p hpw)
    have h1 := ih hps (sdStep st p) (sdStep_base_nonneg st p hb)
      (sdStep_penalty_nonneg st p hp0.1 hpen)
    refine ⟨h1.1, h1.2.1, ?_⟩
    calc (List.foldl sdStep (sdStep st p) ps).base
        + (List.foldl sdStep (sdStep st p) ps).penalty
        ≤ (sdStep st p).base + (sdStep st p).penalty := h1.2.2
      _ ≤ st.base + st.penalty := sdStep_sum_le st p hp0.2

/-- The pattern fold fixes a state with equal strings and zero baseline. -/
theorem sd_fold_self (pats : List ((List Char → List Char) × ℚ)) :
    ∀ st : SDState, st.str1 = st.str2 → st.base = 0 →
      pats.foldl sdStep st = st := by
  induction pats with
  | nil =>
    intro st _ _
    rfl
  | cons p ps ih =>
    intro st h12 hb
    rw [List.foldl_cons, sdStep_self st p h12 hb]
    exact ih st h12 hb

/-- Claim C3: the string distance of any present string with itself is 0.0,
of two absent strings is 0.0, and of an absent string with a present one (in
either order) is 1.0. -/
theorem claim3_string_dist_identities (s : List Char) :
    string_dist (some s) (some s) = 0
    ∧ string_dist none none = 0
    ∧ string_dist none (some s) = 1
    ∧ string_dist (some s) none = 1 := by
  refine ⟨?_, rfl, rfl, rfl⟩
  have hrfl : string_dist (some s) (some s) =
      (SD_PATTERNS.foldl sdStep
        ⟨sdPreprocess s, sdPreprocess s,
          string_dist_basic (sdPreprocess s) (sdPreprocess s), 0⟩).base
      + (SD_PATTERNS.foldl sdStep
        ⟨sdPreprocess s, sdPreprocess s,
          string_dist_basic (sdPreprocess s) (sdPreprocess s), 0⟩).penalty := rfl
  rw [hrfl]
  have hb0 : string_dist_basic (sdPreprocess s) (sdPreprocess s) = 0 :=
    string_dist_basic_self _
  rw [hb0]
  rw [sd_fold_self SD_PATTERNS ⟨sdPreprocess s, sdPreprocess s, 0, 0⟩ rfl rfl]
  norm_num

/-- Claim C4: each pattern refinement step reduces or preserves the score,
and for present strings the final distance lies in [0, 1] and never exceeds
the basic normalized edit distance of the preprocessed (normalized) input
strings. -/
theorem claim4_string_dist_bounds (a b : List Char) :
    (∀ st pw, pw ∈ SD_PATTERNS →
      (sdStep st pw).base + (sdStep st pw).penalty ≤ st.base + st.penalty)
    ∧ 0 ≤ string_dist (some a) (some b)
    ∧ string_dist (some a) (some b) ≤ 1
    ∧ string_dist (some a) (some b)
        ≤ string_dist_basic (sdPreprocess a) (sdPreprocess b) := by
  have hrfl : string_dist (some a) (some b) =
      (SD_PATTERNS.foldl sdStep
        ⟨sdPreprocess a, sdPreprocess b,
          string_dist_basic (sdPreprocess a) (sdPreprocess b), 0⟩).base
      + (SD_PATTERNS.foldl sdStep
        ⟨sdPreprocess a, sdPreprocess b,
          string_dist_basic (sdPreprocess a) (sdPreprocess b), 0⟩).penalty := rfl
  have hbounds := sd_fold_bounds SD_PATTERNS sd_patterns_weights
    ⟨sdPreprocess a, sdPreprocess b,
      string_dist_basic (sdPreprocess a) (sdPreprocess b), 0⟩
    (string_dist_basic_nonneg _ _) (le_refl 0)
  refine ⟨?_, ?_, ?_, ?_⟩
  · intro st pw hpw
    exact sdStep_sum_le st pw (sd_patterns_weights pw hpw).2
  · rw [hrfl]
    linarith [hbounds.1, hbounds.2.1]
  · rw [hrfl]
    have h1 := hbounds.2.2
    have h2 := string_dist_basic_le_one (sdPreprocess a) (sdPreprocess b)
    dsimp only at h1
    linarith
  · rw [hrfl]
    have h1 := hbounds.2.2
    dsimp only at h1
    linarith

/-- Witness for C4: the first pattern applied to the empty state, and the
bounds at two concrete strings. -/
theorem claim4_witness :
    ((subLeadingThe, (1 : ℚ)/10) ∈ SD_PATTERNS)
    ∧ (sdStep ⟨[], [], 0, 0⟩ (subLeadingThe, (1 : ℚ)/10)).base
        + (sdStep ⟨[], [], 0, 0⟩ (subLeadingThe, (1 : ℚ)/10)).penalty
      ≤ (SDState.mk [] [] 0 0).base + (SDState.mk [] [] 0 0).penalty :=
  ⟨by unfold SD_PATTERNS; exact List.mem_cons_self _ _,
   (claim4_string_dist_bounds [] []).1 ⟨[], [], 0, 0⟩ (subLeadingThe, (1 : ℚ)/10)
     (by unfold SD_PATTERNS; exact List.mem_cons_self _ _)⟩

/-- Claim C8: a ServiceError raised by the MusicBrainz search is caught, that
source contributes zero candidates, aggregation continues with the remaining
sources, and the aggregator yields exactly the plugin candidates with no
error reaching the caller. -/
theorem claim8_error_isolation {α : Type} (inp : AggInputs α) (e : ServiceError)
    (hs : inp.searchResult = Except.error e)
    (hva : inp.vaLikely = false ∨ ∃ e2, inp.vaSearchResult = Except.error e2) :
    album_candidates inp = inp.pluginCandidates
    ∧ invoke_mb inp.searchResult = ([] : List α) := by
  have hmb : invoke_mb inp.searchResult = ([] : List α) := by
    rw [hs]
    rfl
  refine ⟨?_, hmb⟩
  unfold album_candidates
  rcases hva with h | ⟨e2, h⟩
  · rw [hmb, h]
    simp
  · have hmb2 : invoke_mb inp.vaSearchResult = ([] : List α) := by
      rw [h]
      rfl
    rw [hmb, hmb2]
    simp

/-- Witness for C8: a failing primary search together with a plugin source
returning two candidates yields exactly those two candidates. -/
theorem claim8_witness :
    ((AggInputs.mk true true true false (Except.error ⟨("boom")⟩)
        (Except.ok []) [7, 9] : AggInputs ℕ).searchResult = Except.error ⟨("boom")⟩)
    ∧ (album_candidates (AggInputs.mk true true true false (Except.error ⟨("boom")⟩)
        (Except.ok []) [7, 9] : AggInputs ℕ) = [7, 9]
      ∧ invoke_mb (AggInputs.mk true true true false (Except.error ⟨("boom")⟩)
        (Except.ok []) [7, 9] : AggInputs ℕ).searchResult = ([] : List ℕ)) :=
  ⟨rfl, claim8_error_isolation
    (AggInputs.mk true true true false (Except.error ⟨("boom")⟩) (Except.ok []) [7, 9])
    ⟨("boom")⟩ rfl (Or.inl rfl)⟩

/-- Reading below the old length is unchanged after appending one cell. -/
theorem get_append_lt (h : THeap) (v : TrackData) (r : TrackRef)
    (hr : r < h.cells.length) : THeap.get ⟨h.cells ++ [v]⟩ r = THeap.get h r := by
  unfold THeap.get
  simp [List.getD_eq_getElem?_getD, List.getElem?_append_left hr]

/-- Reading the appended cell at the old length yields its value. -/
theorem get_append_last (h : THeap) (v : TrackData) :
    THeap.get ⟨h.cells ++ [v]⟩ h.cells.length = v := by
  unfold THeap.get
  simp [List.getD_eq_getElem?_getD, List.getElem?_append_right (le_refl h.cells.length)]

/-- Mutating one track object leaves every other object unchanged. -/
theorem get_setTitle_ne (h : THeap) (r r2 : TrackRef) (t : Option String)
    (hne : r2 ≠ r) : THeap.get (setTitle h r t) r2 = THeap.get h r2 := by
  unfold THeap.get setTitle
  simp [List.getD_eq_getElem?_getD, List.getElem?_set_ne (Ne.symm hne)]

/-- The copied track list has the original's length, all its references are
fresh, old objects keep their state, and each copy holds the state of the
corresponding original. -/
theorem copyTracks_props : ∀ (rs : List TrackRef) (h : THeap),
    (∀ r ∈ rs, r < h.cells.length) →
    (copyTracks h rs).2.length = rs.length
    ∧ (∀ x ∈ (copyTracks h rs).2, h.cells.length ≤ x)
    ∧ (∀ r2, r2 < h.cells.length →
        THeap.get (copyTracks h rs).1 r2 = THeap.get h r2)
    ∧ (∀ i, i < rs.length →
        THeap.get (copyTracks h rs).1 ((copyTracks h rs).2.getD i 0)
          = THeap.get h (rs.getD i 0)) := by
  intro rs
  induction rs with
  | nil =>
    intro h _
    refine ⟨rfl, by simp [copyTracks], fun r2 _ => rfl, fun i hi => absurd hi (by simp)⟩
  | cons r rs ih =>
    intro h hwf
    have hr : r < h.cells.length := hwf r (List.mem_cons_self r rs)
    have hlen1 : (⟨h.cells ++ [h.get r]⟩ : THeap).cells.length = h.cells.length + 1 := by
      simp
    have hwf1 : ∀ r' ∈ rs, r' < (⟨h.cells ++ [h.get r]⟩ : THeap).cells.length := by
      intro r' hr'
      rw [hlen1]
      exact Nat.lt_succ_of_lt (hwf r' (List.mem_cons_of_mem r hr'))
    have hc : copyTracks h (r :: rs) =
        ((copyTracks ⟨h.cells ++ [h.get r]⟩ rs).1,
          h.cells.length :: (copyTracks ⟨h.cells ++ [h.get r]⟩ rs).2) := rfl
    have hih := ih ⟨h.cells ++ [h.get r]⟩ hwf1
    rw [hc]
    refine ⟨?_, ?_, ?_, ?_⟩
    · simp [hih.1]
    · intro x hx
      rcases List.mem_cons.mp hx with hx | hx
      · exact hx ▸ le_refl _
      · have := hih.2.1 x hx
        rw [hlen1] at this
        omega
    · intro r2 hr2
      rw [hih.2.2.1 r2 (by rw [hlen1]; omega)]
      exact get_append_lt h (h.get r) r2 hr2
    · intro i hi
      cases i with
      | zero =>
        simp only [List.getD_cons_zero]
        rw [hih.2.2.1 h.cells.length (by rw [hlen1]; omega)]
        exact get_append_last h (h.get r)
      | succ j =>
        simp only [List.getD_cons_succ]
        have hj : j < rs.length := by
          simpa using Nat.lt_of_succ_lt_succ hi
        rw [hih.2.2.2 j hj]
        have hmem : rs.getD j 0 ∈ rs := by
          rw [List.getD_eq_getElem rs 0 hj]
          exact List.getElem_mem hj
        exact get_append_lt h (h.get r) _ (hwf _ (List.mem_cons_of_mem r hmem))

/-- Claim C9: copying an album deep-copies its track list — the copy's tracks
are distinct objects from all of the original's tracks, each copy initially
holds the corresponding original's state, and mutating a copied track's title
leaves every original track unchanged. -/
theorem claim9_copy_deep (h : THeap) (a : AlbumObj)
    (hwf : ∀ r ∈ a.tracks, r < h.cells.length) :
    ((AlbumObj.copy h a).2.tracks.length = a.tracks.length)
    ∧ (∀ i j, i < a.tracks.length → j < a.tracks.length →
        (AlbumObj.copy h a).2.tracks.getD i 0 ≠ a.tracks.getD j 0)
    ∧ (∀ i, i < a.tracks.length →
        THeap.get (AlbumObj.copy h a).1 ((AlbumObj.copy h a).2.tracks.getD i 0)
          = THeap.get h (a.tracks.getD i 0))
    ∧ (∀ i t j, i < a.tracks.length → j < a.tracks.length →
        THeap.get
          (setTitle (AlbumObj.copy h a).1 ((AlbumObj.copy h a).2.tracks.getD i 0) t)
          (a.tracks.getD j 0)
        = THeap.get h (a.tracks.getD j 0)) := by
  have hp := copyTracks_props a.tracks h hwf
  have hcopy1 : (AlbumObj.copy h a).1 = (copyTracks h a.tracks).1 := rfl
  have hcopy2 : (AlbumObj.copy h a).2.tracks = (copyTracks h a.tracks).2 := rfl
  have hfresh : ∀ i, i < a.tracks.length →
      h.cells.length ≤ (copyTracks h a.tracks).2.getD i 0 := by
    intro i hi
    apply hp.2.1
    have hi2 : i < (copyTracks h a.tracks).2.length := by
      rw [hp.1]
      exact hi
    rw [List.getD_eq_getElem _ 0 hi2]
    exact List.getElem_mem hi2
  have hold : ∀ j, j < a.tracks.length → a.tracks.getD j 0 < h.cells.length := by
    intro j hj
    apply hwf
    rw [List.getD_eq_getElem _ 0 hj]
    exact List.getElem_mem hj
  rw [hcopy1, hcopy2]
  refine ⟨hp.1, ?_, fun i hi => hp.2.2.2 i hi, ?_⟩
  · intro i j hi hj
    have h1 := hfresh i hi
    have h2 := hold j hj
    intro hc
    rw [hc] at h1
    exact absurd (lt_of_le_of_lt h1 h2) (lt_irrefl _)
  · intro i t j hi hj
    have h1 := hfresh i hi
    have h2 := hold j hj
    rw [get_setTitle_ne _ _ _ _ (by
      intro hc
      rw [hc] at h2
      exact absurd (lt_of_le_of_lt h1 h2) (lt_irrefl _))]
    exact hp.2.2.1 _ (hold j hj)

/-- Witness for C9 on a concrete two-track album. -/
theorem claim9_witness :
    (∀ r ∈ (AlbumObj.mk [0, 1]).tracks,
      r < (THeap.mk [⟨some ("x")⟩, ⟨some ("y")⟩]).cells.length)
    ∧ (AlbumObj.copy (THeap.mk [⟨some ("x")⟩, ⟨some ("y")⟩]) (AlbumObj.mk [0, 1])).2.tracks.length
        = (AlbumObj.mk [0, 1]).tracks.length :=
  ⟨by decide,
   (claim9_copy_deep (THeap.mk [⟨some ("x")⟩, ⟨some ("y")⟩]) (AlbumObj.mk [0, 1])
     (by decide)).1⟩

end Beets
